import Mathlib

/-!
# Sliding-window rate limiter: a shallow embedding

This file embeds the sliding-window rate limiter of `src/index.ts` and
proves the specified properties about it.

All JS numbers in play are integer unix seconds or integer rule fields, so
they are modelled as `Int`.  Loop counters are `Nat` and compared to limits
through the coercion.  The stateful parts (Durable Object storage, the HTTP
cache) are modelled by passing the stored timestamp log, respectively the
cache-lookup result, explicitly.
-/

namespace SlidingWindow

/-- `Rate` (src/index.ts lines 1-4): a limit/interval pair.  Valid rules
carry positive integers. -/
structure Rate where
  limit : Int
  interval : Int
deriving Repr, DecidableEq

/-- `filterUntil` (src/index.ts lines 181-191): keep items while the
predicate holds, stop at the first failure. -/
def filterUntil {α : Type} (array : List α) (predicate : α → Bool) : List α :=
  match array with
  | [] => []
  | item :: rest =>
    if predicate item then item :: filterUntil rest predicate else []

/-- The result of `countUntil`: the loop counter and the final value of the
`last` variable. -/
structure CountResult (α : Type) where
  count : Nat
  last : Option α
deriving Repr, DecidableEq

/-- `countUntil` (src/index.ts lines 193-208): count items while the
predicate holds, remembering the last item of the counted run; stop at the
first failure. -/
def countUntil {α : Type} (array : List α) (predicate : α → Bool) : CountResult α :=
  match array with
  | [] => { count := 0, last := none }
  | item :: rest =>
    if predicate item then
      let r := countUntil rest predicate
      { count := r.count + 1, last := some (r.last.getD item) }
    else
      { count := 0, last := none }

/-- `Math.max(...rates.map((rate) => rate.interval))` (line 31).  JS yields
`-Infinity` on an empty argument list, which has no integer counterpart;
the empty case below stands in for it and every claim about the
sliding-window path concerns a nonempty rule list, where this is exactly
the maximum `Math.max` computes. -/
def biggestInterval : List Rate → Int
  | [] => -(2 ^ 53)
  | [r] => r.interval
  | r :: rs => max r.interval (biggestInterval rs)

/-- The decision carried by the response body of `slidingWindow`
(lines 58-71): `{status:"OK"}` or `{status:"LIMITED", retryAt}`. -/
inductive Decision where
  | Allowed : Decision
  | Limited : Int → Decision
deriving Repr, DecidableEq

/-- The trimmed working log (lines 32-37): the stored log passed through
`filterUntil` with the test `request + biggestInterval >= now`. -/
def workingLog (rates : List Rate) (stored : List Int) (now : Int) : List Int :=
  filterUntil stored (fun request => decide (request + biggestInterval rates ≥ now))

/-- The `count` field computed for one rule by `countUntil(requests,
(request) => request + rate.interval >= now)` (lines 43-46). -/
def ruleCount (log : List Int) (now : Int) (rate : Rate) : Nat :=
  (countUntil log (fun request => decide (request + rate.interval ≥ now))).count

/-- The `last` field (the window boundary) computed for one rule
(lines 43-46). -/
def ruleBoundary (log : List Int) (now : Int) (rate : Rate) : Option Int :=
  (countUntil log (fun request => decide (request + rate.interval ≥ now))).last

/-- The violation test `count >= rate.limit` (line 47). -/
def ruleViolated (log : List Int) (now : Int) (rate : Rate) : Bool :=
  decide (rate.limit ≤ (ruleCount log now rate : Int))

/-- A violated rule's candidate retry time `rate.interval + last!`
(line 48).  `last!` is the TS non-null assertion: when `last` is
`undefined` the JS expression would be `NaN`, which has no integer
counterpart, so the absent case is modelled by `Option.getD 0`; the value
is irrelevant whenever every limit is positive, since the violation branch
then guarantees `last` is present (proved below). -/
def ruleCandidate (log : List Int) (now : Int) (rate : Rate) : Int :=
  rate.interval + (ruleBoundary log now rate).getD 0

/-- One iteration of the `for (const rate of rates)` loop (lines 42-50):
`retryAt = Math.max(rate.interval + last!, retryAt ?? 0)` on violation. -/
def loopStep (requests : List Int) (now : Int) (retryAt : Option Int) (rate : Rate) :
    Option Int :=
  if ruleViolated requests now rate then
    some (max (ruleCandidate requests now rate) (retryAt.getD 0))
  else
    retryAt

/-- The whole rule loop (lines 41-50): `retryAt` starts as `null`. -/
def computeRetryAt (rates : List Rate) (requests : List Int) (now : Int) : Option Int :=
  rates.foldl (loopStep requests now) none

/-- The pure core of `RateLimiter.slidingWindow` (lines 25-72): the
decision returned to the caller together with the log persisted by
`this.state.storage.put` (line 56).  On `retryAt === null` the call is
admitted and `now` is unshifted onto the working log (lines 52-54); either
way the working log is what gets persisted. -/
def slidingWindow (rates : List Rate) (stored : List Int) (now : Int) :
    Decision × List Int :=
  match computeRetryAt rates (workingLog rates stored now) now with
  | none => (Decision.Allowed, now :: workingLog rates stored now)
  | some retryAt => (Decision.Limited retryAt, workingLog rates stored now)

/-- The candidate retry times of the violated rules, in rule order. -/
def violatedCandidates (rates : List Rate) (log : List Int) (now : Int) : List Int :=
  (rates.filter (ruleViolated log now)).map (ruleCandidate log now)

/-- The JSON body of a limiter response (lines 59, 63). -/
inductive LimiterJson where
  | ok : LimiterJson
  | limited : Int → LimiterJson
deriving Repr, DecidableEq

/-- The body the actor produces for a request (lines 58-71). -/
def actorJson (rates : List Rate) (stored : List Int) (now : Int) : LimiterJson :=
  match (slidingWindow rates stored now).1 with
  | Decision.Allowed => LimiterJson.ok
  | Decision.Limited retryAt => LimiterJson.limited retryAt

/-- The caller-facing outcome of `rateLimit` (lines 104-123): `none` for an
admitted request (line 111), `some retryAfter` for a 429 response whose
`Retry-After` header is `data.retryAt - Math.ceil(Date.now() / 1000)`
computed at response-building time (line 121).  `cached` is the result of
`cache.match` (line 104) and `fresh` the body `limiter.fetch` would return,
used only on a cache miss (line 105); `nowResp` is the current time when
the response is built. -/
def rateLimitOutcome (cached : Option LimiterJson) (fresh : LimiterJson)
    (nowResp : Int) : Option Int :=
  match cached.getD fresh with
  | LimiterJson.ok => none
  | LimiterJson.limited retryAt => some (retryAt - nowResp)

/-- The coordinator outcome as a function of the stored key state: on a
cache miss the actor evaluates `slidingWindow` on the given rules and its
body is translated by `rateLimit` (lines 104-123). -/
def coordinatorOutcome (rates : List Rate) (stored : List Int) (now : Int)
    (cached : Option LimiterJson) (nowResp : Int) : Option Int :=
  rateLimitOutcome cached (actorJson rates stored now) nowResp

/-- Run `slidingWindow` over a sequence of call times for one key, threading
the persisted log through, and count the calls that were `Allowed` and whose
time lies in the closed window `[lo, hi]`. -/
def allowedInWindow (rates : List Rate) (lo hi : Int) (stored : List Int) :
    List Int → Nat
  | [] => 0
  | t :: ts =>
    (if (slidingWindow rates stored t).1 = Decision.Allowed ∧ lo ≤ t ∧ t ≤ hi
      then 1 else 0) +
      allowedInWindow rates lo hi (slidingWindow rates stored t).2 ts

/-! ## Structural lemmas about the two scanning helpers -/

theorem filterUntil_eq_takeWhile {α : Type} (p : α → Bool) (l : List α) :
    filterUntil l p = l.takeWhile p := by
  induction l with
  | nil => rfl
  | cons x xs ih =>
    by_cases h : p x
    · rw [filterUntil, if_pos h, List.takeWhile_cons_of_pos h, ih]
    · rw [filterUntil, if_neg h, List.takeWhile_cons_of_neg h]

theorem countUntil_count {α : Type} (p : α → Bool) (l : List α) :
    (countUntil l p).count = (l.takeWhile p).length := by
  induction l with
  | nil => rfl
  | cons x xs ih =>
    by_cases h : p x
    · rw [countUntil, if_pos h, List.takeWhile_cons_of_pos h]
      simpa using ih
    · rw [countUntil, if_neg h, List.takeWhile_cons_of_neg h]
      rfl

theorem countUntil_last {α : Type} (p : α → Bool) (l : List α) :
    (countUntil l p).last = (l.takeWhile p).getLast? := by
  induction l with
  | nil => rfl
  | cons x xs ih =>
    by_cases h : p x
    · rw [countUntil, if_pos h, List.takeWhile_cons_of_pos h]
      cases htw : xs.takeWhile p with
      | nil =>
        rw [htw] at ih
        simp only [ih, Option.getD_none]
        rfl
      | cons y ys =>
        rw [htw] at ih
        simp only [ih, List.getLast?_cons_cons]
        cases hz : (y :: ys).getLast? with
        | none => exact absurd (List.getLast?_eq_none_iff.mp hz) (by simp)
        | some z => rfl
    · rw [countUntil, if_neg h, List.takeWhile_cons_of_neg h]
      rfl

theorem takeWhile_takeWhile_of_imp {α : Type} {p q : α → Bool}
    (h : ∀ a, p a = true → q a = true) (l : List α) :
    (l.takeWhile q).takeWhile p = l.takeWhile p := by
  induction l with
  | nil => rfl
  | cons x xs ih =>
    by_cases hq : q x
    · rw [List.takeWhile_cons_of_pos hq]
      by_cases hp : p x
      · rw [List.takeWhile_cons_of_pos hp, List.takeWhile_cons_of_pos hp, ih]
      · rw [List.takeWhile_cons_of_neg hp, List.takeWhile_cons_of_neg hp]
    · have hp : ¬ p x = true := fun hp => hq (h x hp)
      rw [List.takeWhile_cons_of_neg hq, List.takeWhile_cons_of_neg hp]
      rfl

theorem takeWhile_eq_filter_of_sorted {p : Int → Bool}
    (hmono : ∀ a b : Int, b ≤ a → p b = true → p a = true) :
    ∀ l : List Int, l.Pairwise (fun s t => t ≤ s) → l.takeWhile p = l.filter p := by
  intro l hl
  induction l with
  | nil => rfl
  | cons x xs ih =>
    rw [List.pairwise_cons] at hl
    by_cases hp : p x
    · rw [List.takeWhile_cons_of_pos hp, List.filter_cons_of_pos hp, ih hl.2]
    · rw [List.takeWhile_cons_of_neg hp, List.filter_cons_of_neg hp]
      have hnil : xs.filter p = [] := by
        rw [List.filter_eq_nil_iff]
        intro a ha hpa
        exact hp (hmono x a (hl.1 a ha) hpa)
      rw [hnil]

theorem takeWhile_eq_nil_of_all_neg {α : Type} {p : α → Bool} {l : List α}
    (h : ∀ a ∈ l, ¬ p a = true) : l.takeWhile p = [] := by
  cases l with
  | nil => rfl
  | cons x xs => exact List.takeWhile_cons_of_neg (h x (List.mem_cons_self x xs))

theorem take_length_le_takeWhile {α : Type} {p : α → Bool} :
    ∀ (l : List α) (n : Nat), (∀ a ∈ l.take n, p a = true) →
      n ≤ l.length → n ≤ (l.takeWhile p).length := by
  intro l
  induction l with
  | nil => intro n _ hn; simpa using hn
  | cons x xs ih =>
    intro n hall hn
    cases n with
    | zero => exact Nat.zero_le _
    | succ m =>
      have hx : p x = true := hall x (by simp)
      rw [List.takeWhile_cons_of_pos hx]
      simp only [List.length_cons, Nat.succ_le_succ_iff]
      refine ih m (fun a ha => hall a ?_) (by simpa using hn)
      simp [List.take_succ_cons, ha]

theorem interval_le_biggestInterval {rates : List Rate} {rule : Rate}
    (h : rule ∈ rates) : rule.interval ≤ biggestInterval rates := by
  induction rates with
  | nil => cases h
  | cons r rs ih =>
    cases rs with
    | nil =>
      rw [List.mem_singleton] at h
      subst h
      exact le_refl _
    | cons r2 rs2 =>
      rw [show biggestInterval (r :: r2 :: rs2) =
        max r.interval (biggestInterval (r2 :: rs2)) from rfl]
      rcases List.mem_cons.mp h with hh | hh
      · subst hh; exact le_max_left _ _
      · exact le_trans (ih hh) (le_max_right _ _)

theorem biggestInterval_mem {rates : List Rate} (h : rates ≠ []) :
    biggestInterval rates ∈ rates.map Rate.interval := by
  induction rates with
  | nil => exact absurd rfl h
  | cons r rs ih =>
    cases rs with
    | nil =>
      rw [show biggestInterval [r] = r.interval from rfl]
      simp
    | cons r2 rs2 =>
      rw [show biggestInterval (r :: r2 :: rs2) =
        max r.interval (biggestInterval (r2 :: rs2)) from rfl]
      rcases max_choice r.interval (biggestInterval (r2 :: rs2)) with hmax | hmax
      · rw [hmax]; simp
      · rw [hmax]
        exact List.mem_cons_of_mem _ (ih (by simp))

/-! ## The rule loop -/

theorem violatedCandidates_cons_pos {log : List Int} {now : Int} {rate : Rate}
    {rest : List Rate} (hv : ruleViolated log now rate = true) :
    violatedCandidates (rate :: rest) log now =
      ruleCandidate log now rate :: violatedCandidates rest log now := by
  simp [violatedCandidates, List.filter_cons_of_pos hv]

theorem violatedCandidates_cons_neg {log : List Int} {now : Int} {rate : Rate}
    {rest : List Rate} (hv : ¬ ruleViolated log now rate = true) :
    violatedCandidates (rate :: rest) log now = violatedCandidates rest log now := by
  simp [violatedCandidates, List.filter_cons_of_neg hv]

/-- Once `retryAt` is non-null it stays non-null, and the loop keeps the
running maximum of the candidates of the violated rules it still visits. -/
theorem foldl_loopStep_some (log : List Int) (now : Int) (rates : List Rate) :
    ∀ r : Int, ∃ R,
      rates.foldl (loopStep log now) (some r) = some R ∧ r ≤ R ∧
      (R = r ∨ R ∈ violatedCandidates rates log now) ∧
      ∀ c ∈ violatedCandidates rates log now, c ≤ R := by
  induction rates with
  | nil =>
    intro r
    exact ⟨r, rfl, le_refl r, Or.inl rfl, by simp [violatedCandidates]⟩
  | cons rate rest ih =>
    intro r
    by_cases hv : ruleViolated log now rate = true
    · obtain ⟨R, hR, hle, hmem, hub⟩ := ih (max (ruleCandidate log now rate) r)
      refine ⟨R, ?_, ?_, ?_, ?_⟩
      · rw [List.foldl_cons, loopStep, if_pos hv, Option.getD_some]
        exact hR
      · exact le_trans (le_max_right _ _) hle
      · rw [violatedCandidates_cons_pos hv]
        rcases hmem with rfl | hm
        · rcases max_choice (ruleCandidate log now rate) r with hmx | hmx
          · refine Or.inr ?_
            rw [hmx]
            exact List.mem_cons_self _ _
          · exact Or.inl hmx
        · exact Or.inr (List.mem_cons_of_mem _ hm)
      · rw [violatedCandidates_cons_pos hv]
        intro c hc
        rcases List.mem_cons.mp hc with rfl | hc
        · exact le_trans (le_max_left _ _) hle
        · exact hub c hc
    · obtain ⟨R, hR, hle, hmem, hub⟩ := ih r
      refine ⟨R, ?_, hle, ?_, ?_⟩
      · rw [List.foldl_cons, loopStep, if_neg hv]
        exact hR
      · rw [violatedCandidates_cons_neg hv]
        exact hmem
      · rw [violatedCandidates_cons_neg hv]
        exact hub

/-- The loop result is `null` exactly when no rule is violated. -/
theorem computeRetryAt_eq_none_iff (rates : List Rate) (log : List Int) (now : Int) :
    computeRetryAt rates log now = none ↔
      ∀ rate ∈ rates, ruleViolated log now rate = false := by
  induction rates with
  | nil => simp [computeRetryAt]
  | cons rate rest ih =>
    by_cases hv : ruleViolated log now rate = true
    · constructor
      · intro h
        exfalso
        rw [computeRetryAt, List.foldl_cons, loopStep, if_pos hv] at h
        obtain ⟨R, hR, -, -, -⟩ := foldl_loopStep_some log now rest
          (max (ruleCandidate log now rate) ((none : Option Int).getD 0))
        rw [hR] at h
        exact Option.some_ne_none R h
      · intro h
        have := h rate (List.mem_cons_self _ _)
        rw [hv] at this
        cases this
    · rw [computeRetryAt, List.foldl_cons, loopStep, if_neg hv]
      rw [computeRetryAt] at ih
      rw [ih]
      simp only [List.forall_mem_cons, Bool.not_eq_true] at hv ⊢
      exact ⟨fun h => ⟨hv, h⟩, fun h => h.2⟩

/-- When the loop result is non-null it is the maximum candidate retry time
of the violated rules, provided every candidate is nonnegative (true of
valid rules over unix-second logs): the `retryAt ?? 0` in
`Math.max(rate.interval + last!, retryAt ?? 0)` clamps the first candidate
at `0`. -/
theorem computeRetryAt_eq_some (rates : List Rate) (log : List Int) (now : Int)
    (hcand : ∀ rate ∈ rates, ruleViolated log now rate = true →
      0 ≤ ruleCandidate log now rate)
    {R : Int} (h : computeRetryAt rates log now = some R) :
    R ∈ violatedCandidates rates log now ∧
      ∀ c ∈ violatedCandidates rates log now, c ≤ R := by
  induction rates with
  | nil => exact absurd h (by simp [computeRetryAt])
  | cons rate rest ih =>
    by_cases hv : ruleViolated log now rate = true
    · rw [computeRetryAt, List.foldl_cons, loopStep, if_pos hv] at h
      have h0 : max (ruleCandidate log now rate) ((none : Option Int).getD 0) =
          ruleCandidate log now rate := by
        rw [Option.getD_none]
        exact max_eq_left (hcand rate (List.mem_cons_self _ _) hv)
      rw [h0] at h
      obtain ⟨R', hR', hle, hmem, hub⟩ :=
        foldl_loopStep_some log now rest (ruleCandidate log now rate)
      rw [hR'] at h
      injection h with h
      subst h
      rw [violatedCandidates_cons_pos hv]
      constructor
      · rcases hmem with rfl | hm
        · exact List.mem_cons_self _ _
        · exact List.mem_cons_of_mem _ hm
      · intro c hc
        rcases List.mem_cons.mp hc with rfl | hc
        · exact hle
        · exact hub c hc
    · rw [computeRetryAt, List.foldl_cons, loopStep, if_neg hv] at h
      have hrest := ih (fun r hr => hcand r (List.mem_cons_of_mem _ hr)) h
      rw [violatedCandidates_cons_neg hv]
      exact hrest

/-! ## Case analysis of one `slidingWindow` call -/

theorem workingLog_eq_takeWhile (rates : List Rate) (stored : List Int) (now : Int) :
    workingLog rates stored now =
      stored.takeWhile (fun t => decide (t + biggestInterval rates ≥ now)) :=
  filterUntil_eq_takeWhile _ _

theorem slidingWindow_cases (rates : List Rate) (stored : List Int) (now : Int) :
    (computeRetryAt rates (workingLog rates stored now) now = none ∧
      slidingWindow rates stored now =
        (Decision.Allowed, now :: workingLog rates stored now)) ∨
    (∃ R, computeRetryAt rates (workingLog rates stored now) now = some R ∧
      slidingWindow rates stored now =
        (Decision.Limited R, workingLog rates stored now)) := by
  cases h : computeRetryAt rates (workingLog rates stored now) now with
  | none => exact Or.inl ⟨rfl, by simp only [slidingWindow, h]⟩
  | some R => exact Or.inr ⟨R, rfl, by simp only [slidingWindow, h]⟩

theorem slidingWindow_fst_allowed_iff (rates : List Rate) (stored : List Int) (now : Int) :
    (slidingWindow rates stored now).1 = Decision.Allowed ↔
      ∀ rate ∈ rates, ruleViolated (workingLog rates stored now) now rate = false := by
  rw [← computeRetryAt_eq_none_iff]
  rcases slidingWindow_cases rates stored now with ⟨h, heq⟩ | ⟨R, h, heq⟩
  · rw [heq, h]
    simp
  · rw [heq, h]
    simp

/-- With a positive limit, a violated rule's counting scan has seen at
least one item, so its `last` boundary is present. -/
theorem boundary_isSome_of_violated {log : List Int} {now : Int} {rate : Rate}
    (hlim : 1 ≤ rate.limit) (hviol : ruleViolated log now rate = true) :
    (ruleBoundary log now rate).isSome = true := by
  rw [ruleViolated, decide_eq_true_eq] at hviol
  have hcount : (1 : Int) ≤ (ruleCount log now rate : Int) := le_trans hlim hviol
  have hcount' : 1 ≤ ruleCount log now rate := by exact_mod_cast hcount
  rw [ruleCount, countUntil_count] at hcount'
  rw [ruleBoundary, countUntil_last, List.getLast?_isSome]
  exact List.length_pos.mp (lt_of_lt_of_le Nat.zero_lt_one hcount')

/-- The boundary, when present, is an element of the scanned log. -/
theorem boundary_mem {log : List Int} {now : Int} {rate : Rate} {t : Int}
    (h : ruleBoundary log now rate = some t) : t ∈ log := by
  rw [ruleBoundary, countUntil_last] at h
  exact (List.takeWhile_sublist _).subset (List.mem_of_getLast?_eq_some h)

/-- Over a log of nonnegative timestamps, a violated valid rule's candidate
retry time is nonnegative, so the `retryAt ?? 0` clamp never masks it. -/
theorem ruleCandidate_nonneg {log : List Int} {now : Int} {rate : Rate}
    (hlim : 1 ≤ rate.limit) (hlog : ∀ t ∈ log, 0 ≤ t)
    (hint : 0 ≤ rate.interval) (hviol : ruleViolated log now rate = true) :
    0 ≤ ruleCandidate log now rate := by
  obtain ⟨t, ht⟩ := Option.isSome_iff_exists.mp (boundary_isSome_of_violated hlim hviol)
  have hmem := boundary_mem ht
  have h0 := hlog t hmem
  rw [ruleCandidate, ht, Option.getD_some]
  omega

/-! ## Claims C3, C4, C5, C6, C9, C10 -/

/-- C3: for every stored log and every call, the working log is exactly the
longest prefix of the stored log whose every element satisfies
`timestamp + biggestInterval >= now`, where `biggestInterval` is the
maximum interval over the rules; membership is inclusive, so a prior
admitted request at `t0` is still counted at `now = t0 + interval` and is
no longer counted at `now = t0 + interval + 1`. -/
theorem c3_trimmed_working_log (rates : List Rate) (stored : List Int) (now : Int)
    (hne : rates ≠ []) :
    (∃ suffix, workingLog rates stored now ++ suffix = stored) ∧
    (∀ t ∈ workingLog rates stored now, t + biggestInterval rates ≥ now) ∧
    (∀ n, n ≤ stored.length → (∀ t ∈ stored.take n, t + biggestInterval rates ≥ now) →
      n ≤ (workingLog rates stored now).length) ∧
    (biggestInterval rates ∈ rates.map Rate.interval ∧
      ∀ r ∈ rates, r.interval ≤ biggestInterval rates) ∧
    (∀ (t0 : Int) (rate : Rate),
      ruleCount [t0] (t0 + rate.interval) rate = 1 ∧
      ruleCount [t0] (t0 + rate.interval + 1) rate = 0) := by
  refine ⟨?_, ?_, ?_, ⟨biggestInterval_mem hne, fun r hr => interval_le_biggestInterval hr⟩, ?_⟩
  · rw [workingLog_eq_takeWhile]
    exact ⟨stored.dropWhile (fun t => decide (t + biggestInterval rates ≥ now)),
      List.takeWhile_append_dropWhile (fun t => decide (t + biggestInterval rates ≥ now)) stored⟩
  · intro t ht
    rw [workingLog_eq_takeWhile] at ht
    have hpt := List.mem_takeWhile_imp ht
    exact of_decide_eq_true hpt
  · intro n hn hall
    rw [workingLog_eq_takeWhile]
    exact take_length_le_takeWhile stored n (fun a ha => decide_eq_true (hall a ha)) hn
  · intro t0 rate
    constructor
    · have hp : (decide (t0 + rate.interval ≥ t0 + rate.interval)) = true := by
        simp
      simp [ruleCount, countUntil, hp]
    · have hp : (decide (t0 + rate.interval ≥ t0 + rate.interval + 1)) = false := by
        simp only [ge_iff_le, decide_eq_false_iff_not, not_le]
        omega
      simp [ruleCount, countUntil, hp]

/-- C3 witness: the trimming properties at a concrete call. -/
theorem c3_witness :
    (∃ suffix, workingLog [⟨2, 10⟩] [8, 1] 12 ++ suffix = [8, 1]) ∧
    (∀ t ∈ workingLog [⟨2, 10⟩] [8, 1] 12, t + biggestInterval [⟨2, 10⟩] ≥ 12) ∧
    (∀ n, n ≤ ([8, 1] : List Int).length →
      (∀ t ∈ ([8, 1] : List Int).take n, t + biggestInterval [⟨2, 10⟩] ≥ 12) →
      n ≤ (workingLog [⟨2, 10⟩] [8, 1] 12).length) ∧
    (biggestInterval [⟨2, 10⟩] ∈ ([⟨2, 10⟩] : List Rate).map Rate.interval ∧
      ∀ r ∈ ([⟨2, 10⟩] : List Rate), r.interval ≤ biggestInterval [⟨2, 10⟩]) ∧
    (∀ (t0 : Int) (rate : Rate),
      ruleCount [t0] (t0 + rate.interval) rate = 1 ∧
      ruleCount [t0] (t0 + rate.interval + 1) rate = 0) :=
  c3_trimmed_working_log [⟨2, 10⟩] [8, 1] 12 (by decide)

/-- C4: if the decision is `Allowed` the persisted log is `now` prepended to
the working log; if it is `Limited`, `now` is not recorded and the persisted
log is exactly the trimmed working log, so its length never exceeds the
previous stored length and stale entries are removed; the persisted state is
well defined on both outcomes. -/
theorem c4_persistence (rates : List Rate) (stored : List Int) (now : Int) :
    ((slidingWindow rates stored now).1 = Decision.Allowed →
      (slidingWindow rates stored now).2 = now :: workingLog rates stored now) ∧
    (∀ R, (slidingWindow rates stored now).1 = Decision.Limited R →
      (slidingWindow rates stored now).2 = workingLog rates stored now ∧
      (slidingWindow rates stored now).2.length ≤ stored.length ∧
      ∀ t ∈ (slidingWindow rates stored now).2, t + biggestInterval rates ≥ now) := by
  have hlen : (workingLog rates stored now).length ≤ stored.length := by
    rw [workingLog_eq_takeWhile]
    exact (List.takeWhile_sublist _).length_le
  have hmem : ∀ t ∈ workingLog rates stored now, t + biggestInterval rates ≥ now := by
    intro t ht
    rw [workingLog_eq_takeWhile] at ht
    have hpt := List.mem_takeWhile_imp ht
    exact of_decide_eq_true hpt
  rcases slidingWindow_cases rates stored now with ⟨-, heq⟩ | ⟨R0, -, heq⟩
  · refine ⟨fun _ => by rw [heq], fun R hR => ?_⟩
    rw [heq] at hR
    cases hR
  · refine ⟨fun h => ?_, fun R hR => ?_⟩
    · rw [heq] at h
      cases h
    · rw [heq]
      exact ⟨rfl, hlen, hmem⟩

/-- C4 witness: a concrete `Limited` call where the persisted log is the
trimmed working log and no entry is added. -/
theorem c4_witness :
    ((slidingWindow [⟨1, 10⟩] [3] 5).1 = Decision.Allowed →
      (slidingWindow [⟨1, 10⟩] [3] 5).2 = 5 :: workingLog [⟨1, 10⟩] [3] 5) ∧
    (∀ R, (slidingWindow [⟨1, 10⟩] [3] 5).1 = Decision.Limited R →
      (slidingWindow [⟨1, 10⟩] [3] 5).2 = workingLog [⟨1, 10⟩] [3] 5 ∧
      (slidingWindow [⟨1, 10⟩] [3] 5).2.length ≤ ([3] : List Int).length ∧
      ∀ t ∈ (slidingWindow [⟨1, 10⟩] [3] 5).2, t + biggestInterval [⟨1, 10⟩] ≥ 5) :=
  c4_persistence [⟨1, 10⟩] [3] 5

/-- C5 counterexample: the claim admits `now` equal to a stored timestamp
("at least as large"), but then an admitted call duplicates the head: with
stored log `[5]` (strictly decreasing) and a call at `now = 5` under rule
`{limit: 2, interval: 10}`, the persisted log is `[5, 5]`, which is not
strictly decreasing. -/
theorem c5_counterexample :
    List.Pairwise (fun s t => t < s) [(5 : Int)] ∧
    (∀ t ∈ [(5 : Int)], t ≤ 5) ∧
    (slidingWindow [⟨2, 10⟩] [5] 5).2 = [5, 5] ∧
    ¬ List.Pairwise (fun s t => t < s) ((slidingWindow [⟨2, 10⟩] [5] 5).2) := by
  decide

/-- C5 (amended): a new entry is only ever prepended, so when `now` is
strictly larger than every stored timestamp, a strictly decreasing stored
log stays strictly decreasing after the call. -/
theorem c5_strict_order_preserved (rates : List Rate) (stored : List Int) (now : Int)
    (hsorted : stored.Pairwise (fun s t => t < s))
    (hnow : ∀ t ∈ stored, t < now) :
    ((slidingWindow rates stored now).2).Pairwise (fun s t => t < s) := by
  have hw : (workingLog rates stored now).Pairwise (fun s t => t < s) := by
    rw [workingLog_eq_takeWhile]
    exact List.Pairwise.sublist (List.takeWhile_sublist _) hsorted
  have hmem : ∀ t ∈ workingLog rates stored now, t < now := by
    intro t ht
    rw [workingLog_eq_takeWhile] at ht
    exact hnow t ((List.takeWhile_sublist _).subset ht)
  rcases slidingWindow_cases rates stored now with ⟨-, heq⟩ | ⟨R, -, heq⟩
  · rw [heq]
    exact List.pairwise_cons.mpr ⟨hmem, hw⟩
  · rw [heq]
    exact hw

/-- C5 witness: strict order is preserved at a concrete call. -/
theorem c5_witness :
    ((slidingWindow [⟨3, 10⟩] [3, 1] 5).2).Pairwise (fun s t => t < s) :=
  c5_strict_order_preserved [⟨3, 10⟩] [3, 1] 5 (by decide) (by decide)

/-- C6: with rules `[{limit:3,interval:10},{limit:1,interval:100}]` on a
fresh key, the call at `t = 0` is `Allowed` and the call at `t = 5` is
`Limited` with `retryAt = 100`, governed by the stricter 100-second rule. -/
theorem c6_multi_rule_precedence :
    slidingWindow [⟨3, 10⟩, ⟨1, 100⟩] [] 0 = (Decision.Allowed, [0]) ∧
    slidingWindow [⟨3, 10⟩, ⟨1, 100⟩] [0] 5 = (Decision.Limited 100, [0]) := by
  decide

/-- C9: once every stored timestamp has aged out of the biggest window, a
call behaves exactly as on a fresh key: same decision, same persisted
state; with every limit positive that means `Allowed` with persisted log
`[now]`. -/
theorem c9_aged_log_fresh (rates : List Rate) (stored : List Int) (now : Int)
    (haged : ∀ t ∈ stored, t + biggestInterval rates < now)
    (hlim : ∀ r ∈ rates, 0 < r.limit) :
    slidingWindow rates stored now = slidingWindow rates [] now ∧
    slidingWindow rates stored now = (Decision.Allowed, [now]) := by
  have hw : workingLog rates stored now = [] := by
    rw [workingLog_eq_takeWhile]
    apply takeWhile_eq_nil_of_all_neg
    intro t ht hdec
    have h1 := of_decide_eq_true hdec
    have h2 := haged t ht
    omega
  have hw0 : workingLog rates [] now = [] := rfl
  have hnone : computeRetryAt rates [] now = none := by
    rw [computeRetryAt_eq_none_iff]
    intro rate hrate
    have hc : ruleCount [] now rate = 0 := rfl
    rw [ruleViolated, hc]
    simp only [Nat.cast_zero, decide_eq_false_iff_not, not_le]
    exact hlim rate hrate
  constructor
  · simp only [slidingWindow, hw, hw0]
  · simp only [slidingWindow, hw, hw0, hnone]

/-- C9 witness: a fully aged-out log at a concrete call. -/
theorem c9_witness :
    slidingWindow [⟨1, 10⟩] [5] 100 = slidingWindow [⟨1, 10⟩] [] 100 ∧
    slidingWindow [⟨1, 10⟩] [5] 100 = (Decision.Allowed, [100]) :=
  c9_aged_log_fresh [⟨1, 10⟩] [5] 100 (by decide) (by decide)

/-- C10: with a positive limit, whenever the violation branch is reached
(`count >= rate.limit`), the `last` boundary of the counting scan is
present, so `rate.interval + last!` never applies the non-null assertion to
an absent value. -/
theorem c10_boundary_defined (log : List Int) (now : Int) (rate : Rate)
    (hlim : 1 ≤ rate.limit) (hviol : ruleViolated log now rate = true) :
    (ruleBoundary log now rate).isSome = true :=
  boundary_isSome_of_violated hlim hviol

/-- C10 witness: a concrete violated rule with a present boundary. -/
theorem c10_witness : (ruleBoundary [0] 0 ⟨1, 5⟩).isSome = true :=
  c10_boundary_defined [0] 0 ⟨1, 5⟩ (by decide) (by decide)

/-! ## Claim C2 -/

/-- C2: every rule is evaluated independently on the working log: for each
rule the scan counts the prefix satisfying `timestamp + interval >= now`
and records the oldest timestamp of that prefix as its boundary; the
decision is `Allowed` exactly when no rule reaches `count >= limit`, and a
`Limited` decision carries the maximum candidate `boundary + interval` over
all violated rules (so no short-circuit after the first violation could
have produced it). -/
theorem c2_rule_evaluation (rates : List Rate) (stored : List Int) (now : Int)
    (hpos : ∀ r ∈ rates, 0 < r.limit ∧ 0 < r.interval)
    (hlog : ∀ t ∈ stored, 0 ≤ t) :
    (∀ rate : Rate,
      ruleCount (workingLog rates stored now) now rate =
        ((workingLog rates stored now).takeWhile
          (fun t => decide (t + rate.interval ≥ now))).length ∧
      ruleBoundary (workingLog rates stored now) now rate =
        ((workingLog rates stored now).takeWhile
          (fun t => decide (t + rate.interval ≥ now))).getLast?) ∧
    ((slidingWindow rates stored now).1 = Decision.Allowed ↔
      ∀ rate ∈ rates, ruleViolated (workingLog rates stored now) now rate = false) ∧
    (∀ R, (slidingWindow rates stored now).1 = Decision.Limited R →
      R ∈ violatedCandidates rates (workingLog rates stored now) now ∧
      ∀ c ∈ violatedCandidates rates (workingLog rates stored now) now, c ≤ R) := by
  have hwmem : ∀ t ∈ workingLog rates stored now, 0 ≤ t := by
    intro t ht
    rw [workingLog_eq_takeWhile] at ht
    exact hlog t ((List.takeWhile_sublist _).subset ht)
  have hcand : ∀ rate ∈ rates,
      ruleViolated (workingLog rates stored now) now rate = true →
      0 ≤ ruleCandidate (workingLog rates stored now) now rate := by
    intro rate hrate hv
    exact ruleCandidate_nonneg (hpos rate hrate).1 hwmem (le_of_lt (hpos rate hrate).2) hv
  refine ⟨fun rate => ⟨countUntil_count _ _, countUntil_last _ _⟩,
    slidingWindow_fst_allowed_iff rates stored now, ?_⟩
  intro R hR
  rcases slidingWindow_cases rates stored now with ⟨-, heq⟩ | ⟨R0, hsome, heq⟩
  · rw [heq] at hR
    cases hR
  · rw [heq] at hR
    have hRR : R0 = R := by
      have : Decision.Limited R0 = Decision.Limited R := hR
      injection this
    subst hRR
    exact computeRetryAt_eq_some rates _ now hcand hsome

/-- C2 witness: the evaluation properties at a concrete `Limited` call. -/
theorem c2_witness :
    (∀ rate : Rate,
      ruleCount (workingLog [⟨3, 10⟩, ⟨1, 100⟩] [0] 5) 5 rate =
        ((workingLog [⟨3, 10⟩, ⟨1, 100⟩] [0] 5).takeWhile
          (fun t => decide (t + rate.interval ≥ 5))).length ∧
      ruleBoundary (workingLog [⟨3, 10⟩, ⟨1, 100⟩] [0] 5) 5 rate =
        ((workingLog [⟨3, 10⟩, ⟨1, 100⟩] [0] 5).takeWhile
          (fun t => decide (t + rate.interval ≥ 5))).getLast?) ∧
    ((slidingWindow [⟨3, 10⟩, ⟨1, 100⟩] [0] 5).1 = Decision.Allowed ↔
      ∀ rate ∈ ([⟨3, 10⟩, ⟨1, 100⟩] : List Rate),
        ruleViolated (workingLog [⟨3, 10⟩, ⟨1, 100⟩] [0] 5) 5 rate = false) ∧
    (∀ R, (slidingWindow [⟨3, 10⟩, ⟨1, 100⟩] [0] 5).1 = Decision.Limited R →
      R ∈ violatedCandidates [⟨3, 10⟩, ⟨1, 100⟩] (workingLog [⟨3, 10⟩, ⟨1, 100⟩] [0] 5) 5 ∧
      ∀ c ∈ violatedCandidates [⟨3, 10⟩, ⟨1, 100⟩] (workingLog [⟨3, 10⟩, ⟨1, 100⟩] [0] 5) 5,
        c ≤ R) :=
  c2_rule_evaluation [⟨3, 10⟩, ⟨1, 100⟩] [0] 5 (by decide) (by decide)

/-! ## Claim C7 -/

/-- C7: every `Limited` outcome of the coordinator — whether the body came
from the response cache or from the actor — carries
`retryAfterSeconds = retryAt - now` computed at response-building time, not
the value captured when the cache entry was made; on a cache hit the
actor's would-be response is irrelevant; and a cached
`Limited{retryAt = now + 5}` served 2 seconds later yields `Retry-After = 3`
with no actor round trip. -/
theorem c7_retry_after_recomputed (cached : Option LimiterJson) (fresh : LimiterJson)
    (retryAt nowResp now : Int)
    (h : cached.getD fresh = LimiterJson.limited retryAt) :
    rateLimitOutcome cached fresh nowResp = some (retryAt - nowResp) ∧
    (∀ c fresh2, cached = some c →
      rateLimitOutcome cached fresh2 nowResp = rateLimitOutcome cached fresh nowResp) ∧
    rateLimitOutcome (some (LimiterJson.limited (now + 5))) LimiterJson.ok (now + 2) =
      some 3 := by
  refine ⟨?_, ?_, ?_⟩
  · simp only [rateLimitOutcome, h]
  · intro c fresh2 hc
    simp only [rateLimitOutcome, hc, Option.getD_some]
  · show some (now + 5 - (now + 2)) = some 3
    exact congrArg some (by omega)

/-- C7 witness: a concrete cached `Limited` body. -/
theorem c7_witness :
    rateLimitOutcome (some (LimiterJson.limited 10)) LimiterJson.ok 7 = some (10 - 7) ∧
    (∀ c fresh2, (some (LimiterJson.limited 10) : Option LimiterJson) = some c →
      rateLimitOutcome (some (LimiterJson.limited 10)) fresh2 7 =
        rateLimitOutcome (some (LimiterJson.limited 10)) LimiterJson.ok 7) ∧
    rateLimitOutcome (some (LimiterJson.limited (0 + 5))) LimiterJson.ok (0 + 2) = some 3 :=
  c7_retry_after_recomputed (some (LimiterJson.limited 10)) LimiterJson.ok 10 7 0 (by decide)

/-! ## Claim C8 -/

/-- C8 counterexample: the coordinator does not reject malformed rules at
its boundary.  For the malformed rule `{limit: 1, interval: 0}` the
coordinator's outcome on a cache miss depends on the stored key state —
empty log yields an admission, log `[100]` yields a 429 — so the
KeyActor's decision logic runs on the malformed rule instead of a boundary
rejection, refuting the claim at this input. -/
theorem c8_counterexample :
    ¬ 0 < (⟨1, 0⟩ : Rate).interval ∧
    coordinatorOutcome [⟨1, 0⟩] [] 100 none 100 = none ∧
    coordinatorOutcome [⟨1, 0⟩] [100] 100 none 100 = some 0 ∧
    coordinatorOutcome [⟨1, 0⟩] [] 100 none 100 ≠
      coordinatorOutcome [⟨1, 0⟩] [100] 100 none 100 := by
  decide

/-- C8 (amended): the coordinator performs no rule validation: on a cache
miss its response for any rules list, malformed or not, is the translation
of the KeyActor's decision on those very rules, and the KeyActor's decision
logic itself processes a non-positive-interval rule as an ordinary rule. -/
theorem c8_no_boundary_validation (rates : List Rate) (stored : List Int)
    (now nowResp t : Int) :
    coordinatorOutcome rates stored now none nowResp =
      rateLimitOutcome none (actorJson rates stored now) nowResp ∧
    slidingWindow [⟨1, 0⟩] [] t = (Decision.Allowed, [t]) :=
  ⟨rfl, rfl⟩

/-! ## Claim C1: the sliding-window admission bound

The run invariant: after processing a nondecreasing sequence of call times
whose last element is `m`, starting from the empty log, the stored log is
exactly the newest-first list `A` of admitted times filtered down to the
entries still inside the biggest window at `m` — and since `A` is sorted
newest-first, that trim is a `takeWhile`. -/

theorem workingLog_shift (rates : List Rate) (A : List Int) {m now : Int}
    (hmn : m ≤ now) :
    workingLog rates
        (A.takeWhile (fun t => decide (t + biggestInterval rates ≥ m))) now =
      A.takeWhile (fun t => decide (t + biggestInterval rates ≥ now)) := by
  rw [workingLog_eq_takeWhile]
  apply takeWhile_takeWhile_of_imp
  intro x hx
  have h1 := of_decide_eq_true hx
  exact decide_eq_true (by omega)

theorem takeWhile_rule_of_working (rates : List Rate) {rule : Rate}
    (hrule : rule ∈ rates) (A : List Int) (now : Int) :
    (A.takeWhile (fun t => decide (t + biggestInterval rates ≥ now))).takeWhile
        (fun t => decide (t + rule.interval ≥ now)) =
      A.takeWhile (fun t => decide (t + rule.interval ≥ now)) := by
  apply takeWhile_takeWhile_of_imp
  intro x hx
  have h1 := of_decide_eq_true hx
  have h2 := interval_le_biggestInterval hrule
  exact decide_eq_true (by omega)

theorem takeWhile_rule_eq_filter {A : List Int}
    (hA : A.Pairwise (fun s t => t ≤ s)) (I now : Int) :
    A.takeWhile (fun t => decide (t + I ≥ now)) =
      A.filter (fun t => decide (t + I ≥ now)) := by
  apply takeWhile_eq_filter_of_sorted _ A hA
  intro x y hyx hy
  have h1 := of_decide_eq_true hy
  exact decide_eq_true (by omega)

/-- The count a rule sees at time `now`, when the stored log is the
invariant shape at an earlier time `m`, is the number of admitted times
still inside the rule's window at `now`. -/
theorem ruleCount_on_shifted (rates : List Rate) {rule : Rate} (hrule : rule ∈ rates)
    {A : List Int} (hA : A.Pairwise (fun s t => t ≤ s)) {m now : Int} (hmn : m ≤ now) :
    ruleCount (workingLog rates
        (A.takeWhile (fun t => decide (t + biggestInterval rates ≥ m))) now) now rule =
      (A.filter (fun t => decide (t + rule.interval ≥ now))).length := by
  rw [ruleCount, countUntil_count, workingLog_shift rates A hmn,
    takeWhile_rule_of_working rates hrule, takeWhile_rule_eq_filter hA]

/-- The admitted times inside the closed window `[a, a + I]` are among
those the rule still counts at any `now ≤ a + I`. -/
theorem window_le_rule_filter (A : List Int) {a now I : Int} (hnow : now ≤ a + I) :
    (A.filter (fun t => decide (a ≤ t ∧ t ≤ a + I))).length ≤
      (A.filter (fun t => decide (t + I ≥ now))).length := by
  have hsub : A.filter (fun t => decide (a ≤ t ∧ t ≤ a + I)) =
      (A.filter (fun t => decide (t + I ≥ now))).filter
        (fun t => decide (a ≤ t ∧ t ≤ a + I)) := by
    rw [List.filter_filter]
    apply List.filter_congr
    intro x hx
    by_cases hw : a ≤ x ∧ x ≤ a + I
    · have hd : decide (a ≤ x ∧ x ≤ a + I) = true := decide_eq_true hw
      have hp : decide (x + I ≥ now) = true := decide_eq_true (by omega)
      rw [hd, hp]
      rfl
    · have hd : decide (a ≤ x ∧ x ≤ a + I) = false := decide_eq_false hw
      rw [hd]
      rfl
  rw [hsub]
  exact List.length_filter_le _ _

/-- Main induction for C1: running over nondecreasing future times from the
invariant state, the final number of admitted-in-window calls, counting the
`A`-entries already in the window, never exceeds `max limit` (count already
there). -/
theorem run_window_bound (rates : List Rate) (rule : Rate) (hrule : rule ∈ rates)
    (hpos : ∀ r ∈ rates, 0 < r.limit ∧ 0 < r.interval) (a : Int) :
    ∀ (ts A : List Int) (m : Int),
      ts.Pairwise (fun s t => s ≤ t) →
      (∀ t ∈ ts, m ≤ t) →
      A.Pairwise (fun s t => t ≤ s) →
      (∀ t ∈ A, t ≤ m) →
      ((A.filter (fun t => decide (a ≤ t ∧ t ≤ a + rule.interval))).length : Int) +
          (allowedInWindow rates a (a + rule.interval)
            (A.takeWhile (fun t => decide (t + biggestInterval rates ≥ m))) ts : Int) ≤
        max rule.limit
          ((A.filter (fun t => decide (a ≤ t ∧ t ≤ a + rule.interval))).length : Int) := by
  intro ts
  induction ts with
  | nil =>
    intro A m _ _ _ _
    simp only [allowedInWindow, Nat.cast_zero, add_zero]
    exact le_max_right _ _
  | cons t ts ih =>
    intro A m hts htm hA hAm
    have hm : m ≤ t := htm t (List.mem_cons_self _ _)
    have hts' : ts.Pairwise (fun s u => s ≤ u) := (List.pairwise_cons.mp hts).2
    have htm' : ∀ s ∈ ts, t ≤ s := (List.pairwise_cons.mp hts).1
    have hAt : ∀ x ∈ A, x ≤ t := fun x hx => le_trans (hAm x hx) hm
    have hbig : rule.interval ≤ biggestInterval rates := interval_le_biggestInterval hrule
    have hI : 0 < rule.interval := (hpos rule hrule).2
    have hL : 0 < rule.limit := (hpos rule hrule).1
    simp only [allowedInWindow]
    rcases slidingWindow_cases rates
        (A.takeWhile (fun u => decide (u + biggestInterval rates ≥ m))) t with
      ⟨hnone, heq⟩ | ⟨R, hsome, heq⟩
    · -- the call at `t` is admitted
      have hfst : (slidingWindow rates
          (A.takeWhile (fun u => decide (u + biggestInterval rates ≥ m))) t).1 =
          Decision.Allowed := by rw [heq]
      have hsnd : (slidingWindow rates
          (A.takeWhile (fun u => decide (u + biggestInterval rates ≥ m))) t).2 =
          (t :: A).takeWhile (fun u => decide (u + biggestInterval rates ≥ t)) := by
        rw [heq]
        show t :: workingLog rates
            (A.takeWhile (fun u => decide (u + biggestInterval rates ≥ m))) t =
          (t :: A).takeWhile (fun u => decide (u + biggestInterval rates ≥ t))
        have hqt : (fun u => decide (u + biggestInterval rates ≥ t)) t = true :=
          decide_eq_true (by omega)
        have hcons := @List.takeWhile_cons_of_pos Int
          (fun u => decide (u + biggestInterval rates ≥ t)) t A hqt
        rw [hcons, workingLog_shift rates A hm]
      have hA' : (t :: A).Pairwise (fun s u => u ≤ s) :=
        List.pairwise_cons.mpr ⟨hAt, hA⟩
      have hAm' : ∀ x ∈ t :: A, x ≤ t := by
        intro x hx
        rcases List.mem_cons.mp hx with rfl | hx
        · exact le_refl x
        · exact hAt x hx
      have hrec := ih (t :: A) t hts' htm' hA' hAm'
      rw [hsnd]
      by_cases hwt : a ≤ t ∧ t ≤ a + rule.interval
      · -- the admitted call falls in the window: the prior window count is
        -- below the limit, because the rule's count at `t` was
        have hviol : ruleViolated (workingLog rates
            (A.takeWhile (fun u => decide (u + biggestInterval rates ≥ m))) t) t rule =
            false := by
          rw [computeRetryAt_eq_none_iff] at hnone
          exact hnone rule hrule
        have hcnt : ruleCount (workingLog rates
            (A.takeWhile (fun u => decide (u + biggestInterval rates ≥ m))) t) t rule =
            (A.filter (fun u => decide (u + rule.interval ≥ t))).length :=
          ruleCount_on_shifted rates hrule hA hm
        rw [ruleViolated, hcnt, decide_eq_false_iff_not, not_le] at hviol
        have hwin : (A.filter (fun u => decide (a ≤ u ∧ u ≤ a + rule.interval))).length ≤
            (A.filter (fun u => decide (u + rule.interval ≥ t))).length :=
          window_le_rule_filter A hwt.2
        have hlt : ((A.filter (fun u =>
            decide (a ≤ u ∧ u ≤ a + rule.interval))).length : Int) < rule.limit :=
          lt_of_le_of_lt (by exact_mod_cast hwin) hviol
        have hcons : (t :: A).filter (fun u => decide (a ≤ u ∧ u ≤ a + rule.interval)) =
            t :: A.filter (fun u => decide (a ≤ u ∧ u ≤ a + rule.interval)) :=
          List.filter_cons_of_pos (decide_eq_true hwt)
        rw [hcons, List.length_cons] at hrec
        have hcond : (if (slidingWindow rates
            (A.takeWhile (fun u => decide (u + biggestInterval rates ≥ m))) t).1 =
              Decision.Allowed ∧ a ≤ t ∧ t ≤ a + rule.interval then 1 else 0) = 1 :=
          if_pos ⟨hfst, hwt⟩
        rw [hcond]
        have hmax : max rule.limit
            (((A.filter (fun u => decide (a ≤ u ∧ u ≤ a + rule.interval))).length : Int) + 1) =
            rule.limit := max_eq_left (by omega)
        push_cast at hrec ⊢
        rw [hmax] at hrec
        have hfin : (rule.limit : Int) ≤ max rule.limit
            ((A.filter (fun u => decide (a ≤ u ∧ u ≤ a + rule.interval))).length : Int) :=
          le_max_left _ _
        omega
      · have hcond : (if (slidingWindow rates
            (A.takeWhile (fun u => decide (u + biggestInterval rates ≥ m))) t).1 =
              Decision.Allowed ∧ a ≤ t ∧ t ≤ a + rule.interval then 1 else 0) = 0 :=
          if_neg (fun hc => hwt hc.2)
        have hcons : (t :: A).filter (fun u => decide (a ≤ u ∧ u ≤ a + rule.interval)) =
            A.filter (fun u => decide (a ≤ u ∧ u ≤ a + rule.interval)) :=
          List.filter_cons_of_neg (fun hd => hwt (of_decide_eq_true hd))
        rw [hcons] at hrec
        rw [hcond]
        push_cast at hrec ⊢
        omega
    · -- the call at `t` is rejected: the log only shrinks, nothing admitted
      have hfst : (slidingWindow rates
          (A.takeWhile (fun u => decide (u + biggestInterval rates ≥ m))) t).1 =
          Decision.Limited R := by rw [heq]
      have hsnd : (slidingWindow rates
          (A.takeWhile (fun u => decide (u + biggestInterval rates ≥ m))) t).2 =
          A.takeWhile (fun u => decide (u + biggestInterval rates ≥ t)) := by
        rw [heq, workingLog_shift rates A hm]
      have hcond : (if (slidingWindow rates
          (A.takeWhile (fun u => decide (u + biggestInterval rates ≥ m))) t).1 =
            Decision.Allowed ∧ a ≤ t ∧ t ≤ a + rule.interval then 1 else 0) = 0 :=
        if_neg (by
          rintro ⟨hc, -⟩
          rw [hfst] at hc
          cases hc)
      have hrec := ih A t hts' htm' hA hAt
      rw [hcond, hsnd]
      push_cast at hrec ⊢
      omega

/-- C1: starting from a fresh key, over any nondecreasing sequence of call
times and for every (valid) rule of the list, the number of `Allowed`
decisions whose times fall within any single closed window of that rule's
interval length never exceeds that rule's limit. -/
theorem c1_sliding_window_limit (rates : List Rate) (rule : Rate) (hrule : rule ∈ rates)
    (hpos : ∀ r ∈ rates, 0 < r.limit ∧ 0 < r.interval)
    (ts : List Int) (hts : ts.Pairwise (fun s t => s ≤ t)) (a : Int) :
    (allowedInWindow rates a (a + rule.interval) [] ts : Int) ≤ rule.limit := by
  cases ts with
  | nil =>
    simp only [allowedInWindow, Nat.cast_zero]
    exact le_of_lt (hpos rule hrule).1
  | cons t0 ts' =>
    have htm : ∀ s ∈ t0 :: ts', t0 ≤ s := by
      intro s hs
      rcases List.mem_cons.mp hs with rfl | hs
      · exact le_refl s
      · exact (List.pairwise_cons.mp hts).1 s hs
    have h := run_window_bound rates rule hrule hpos a (t0 :: ts') [] t0 hts htm
      List.Pairwise.nil (by intro t ht; cases ht)
    simp only [List.filter_nil, List.length_nil, Nat.cast_zero, List.takeWhile_nil,
      zero_add] at h
    rw [max_eq_left (le_of_lt (hpos rule hrule).1)] at h
    exact h

/-- C1 witness: rule `{limit: 2, interval: 10}` with calls at `0, 1, 2`
admits at most 2 in the window `[0, 10]`. -/
theorem c1_witness :
    (allowedInWindow [⟨2, 10⟩] 0 (0 + (⟨2, 10⟩ : Rate).interval) [] [0, 1, 2] : Int) ≤
      (⟨2, 10⟩ : Rate).limit :=
  c1_sliding_window_limit [⟨2, 10⟩] ⟨2, 10⟩ (by decide) (by decide) [0, 1, 2] (by decide) 0

end SlidingWindow
